import Mathlib

/-!
# Verification of the TIN mesh kernel

A shallow embedding of the TIN (triangulated irregular network) editor
kernel: the geometry utilities (`computeDelaunay`, `getEdgeKey`,
`getTriangleEdges`, `trianglesWithEdge` from `src/utils/geometry.ts`) and
the stateful `TinMesh` class (`src/core/TinMesh.ts`).

Modelling conventions:
* JavaScript numbers are modelled as rationals (`ℚ`).  The picking query
  `findNearestPoint` compares Euclidean distances with strict `<` only;
  since `Real.sqrt` is strictly monotone on nonnegative reals, the
  embedding compares squared distances, and the hard-coded threshold
  `1.5` becomes `9/4`.
* The external planar Delaunay capability (the `Delaunator` library) is
  an opaque parameter `oracle : List (ℚ × ℚ) → List (ℕ × ℕ × ℕ)` mapping
  the projected 2-D coordinates to index triples.  A second, fallible
  form `Option (List (ℕ × ℕ × ℕ))` models the library throwing; `none`
  plays the rôle of a thrown exception, and the `F`-suffixed operations
  return the success flag together with the state the object holds when
  control leaves the method (normally or by propagating the exception).
* `this.onChange?.()` invocations are counted by a `changeCount` field;
  an operation fires the change notification exactly when it increments
  the counter.
* TypeScript's `Set<number>` becomes `Finset ℕ`; in-place mutation
  becomes explicit state passing.
* `filter((_, i) => …)`, `map((t, i) => …).filter(i => i >= 0)` and
  index-assignment loops are embedded as structural recursions carrying
  the running index, which is their elementwise meaning.
-/

/-- A sample point; `interface Point3D` of `geometry.ts`. -/
structure Point3D where
  x : ℚ
  y : ℚ
  z : ℚ
deriving DecidableEq, Repr

/-- A triangle of the mesh; `interface Triangle` of `geometry.ts`:
an index triple into the active projection plus a soft-deletion flag. -/
structure Triangle where
  indices : ℕ × ℕ × ℕ
  deleted : Bool
deriving DecidableEq, Repr

/-- An edge of a triangle; `interface Edge` of `geometry.ts`. -/
structure Edge where
  a : ℕ
  b : ℕ
  key : String
deriving DecidableEq, Repr

/-- `getEdgeKey` of `geometry.ts`: the canonical key of an unordered pair,
`a < b ? a-b : b-a` rendered in decimal. -/
def getEdgeKey (a b : ℕ) : String :=
  if a < b then toString a ++ "-" ++ toString b
  else toString b ++ "-" ++ toString a

/-- `getTriangleEdges` of `geometry.ts`: the three edges of a triangle. -/
def getTriangleEdges (tri : Triangle) : List Edge :=
  let i0 := tri.indices.1
  let i1 := tri.indices.2.1
  let i2 := tri.indices.2.2
  [ { a := i0, b := i1, key := getEdgeKey i0 i1 },
    { a := i1, b := i2, key := getEdgeKey i1 i2 },
    { a := i2, b := i0, key := getEdgeKey i2 i0 } ]

/-- `computeDelaunay` of `geometry.ts`, with the external capability
abstracted: below 3 points the result is `[]` without consulting the
oracle; otherwise each point is projected to its `(x, y)` pair, the
oracle produces index triples, and each becomes a `Triangle` with
`deleted := false`. -/
def computeDelaunay (oracle : List (ℚ × ℚ) → List (ℕ × ℕ × ℕ))
    (points : List Point3D) : List Triangle :=
  if points.length < 3 then []
  else (oracle (points.map fun p => (p.x, p.y))).map
    fun t => { indices := t, deleted := false }

/-- `trianglesWithEdge` of `geometry.ts`: positions (into the triangle
list) of the non-deleted triangles one of whose edges has the given key.
The source writes this with a `-1` sentinel and a `filter(i => i >= 0)`;
the recursion keeps exactly the retained positions, in the same
ascending order. -/
def trianglesWithEdgeAux (edgeKey : String) : List Triangle → ℕ → List ℕ
  | [], _ => []
  | t :: rest, i =>
    if !t.deleted && (getTriangleEdges t).any (fun e => e.key == edgeKey) then
      i :: trianglesWithEdgeAux edgeKey rest (i + 1)
    else trianglesWithEdgeAux edgeKey rest (i + 1)

/-- Entry point of `trianglesWithEdge`, scanning from position 0. -/
def trianglesWithEdge (triangles : List Triangle) (edgeKey : String) : List ℕ :=
  trianglesWithEdgeAux edgeKey triangles 0

/-- The `TinMesh` kernel state: `points`, `triangles`, `deletedPoints`
from `TinMesh.ts`, plus a counter of `onChange` notification firings
(the rendering members are presentation-layer and carry no kernel
state). -/
structure TinMesh where
  points : List Point3D
  triangles : List Triangle
  deletedPoints : Finset ℕ
  changeCount : ℕ
deriving DecidableEq

/-- `points.filter((_, i) => !deletedPoints.has(i))`, the index-aware
filter shared by `regenerate` and `getActivePoints`, as a recursion on
the list carrying the running raw index. -/
def activeFilter (deleted : Finset ℕ) : List Point3D → ℕ → List Point3D
  | [], _ => []
  | p :: rest, i =>
    if i ∈ deleted then activeFilter deleted rest (i + 1)
    else p :: activeFilter deleted rest (i + 1)

/-- `TinMesh.getActivePoints`: the active projection. -/
def getActivePoints (m : TinMesh) : List Point3D :=
  activeFilter m.deletedPoints m.points 0

/-- `TinMesh.regenerate`: recompute the triangulation of the active
projection, install it wholesale, fire the change notification. -/
def regenerate (oracle : List (ℚ × ℚ) → List (ℕ × ℕ × ℕ))
    (m : TinMesh) : TinMesh :=
  { m with
    triangles := computeDelaunay oracle (getActivePoints m)
    changeCount := m.changeCount + 1 }

/-- `TinMesh.setPoints`: replace the raw point list, clear the deleted
set, regenerate. -/
def setPoints (oracle : List (ℚ × ℚ) → List (ℕ × ℕ × ℕ))
    (m : TinMesh) (points : List Point3D) : TinMesh :=
  regenerate oracle { m with points := points, deletedPoints := ∅ }

/-- `this.triangles[i].deleted = true`: set the flag of the triangle at
one position, leaving every other entry alone. -/
def setTriDeleted : List Triangle → ℕ → List Triangle
  | [], _ => []
  | t :: rest, 0 => { t with deleted := true } :: rest
  | t :: rest, i + 1 => t :: setTriDeleted rest i

/-- `TinMesh.deleteEdge`: mark every triangle using the edge deleted
(via `trianglesWithEdge`), retriangulating nothing, and fire the change
notification unconditionally. -/
def deleteEdge (m : TinMesh) (edgeKey : String) : TinMesh :=
  let triIndices := trianglesWithEdge m.triangles edgeKey
  { m with
    triangles := triIndices.foldl setTriDeleted m.triangles
    changeCount := m.changeCount + 1 }

/-- The raw-index scan of `deletePointByActiveIndex`: walk the raw
indices in ascending order, counting entries not in `deletedPoints`,
and return the raw index at which the count reaches `activeIndex`. -/
def scanRaw (deleted : Finset ℕ) (activeIndex : ℕ) : List ℕ → ℕ → Option ℕ
  | [], _ => none
  | i :: rest, count =>
    if i ∈ deleted then scanRaw deleted activeIndex rest count
    else if count = activeIndex then some i
    else scanRaw deleted activeIndex rest (count + 1)

/-- `TinMesh.deletePointByActiveIndex`: bounds-check the active index
(negative or too large is an early `return` touching nothing and firing
no notification), translate it to a raw index by the ascending scan,
add that raw index to `deletedPoints`, and regenerate. -/
def deletePointByActiveIndex (oracle : List (ℚ × ℚ) → List (ℕ × ℕ × ℕ))
    (m : TinMesh) (activeIndex : ℤ) : TinMesh :=
  let activePoints := getActivePoints m
  if activeIndex < 0 ∨ (activePoints.length : ℤ) ≤ activeIndex then m
  else
    let m' :=
      match scanRaw m.deletedPoints activeIndex.toNat
          (List.range m.points.length) 0 with
      | some i => { m with deletedPoints := insert i m.deletedPoints }
      | none => m
    regenerate oracle m'

/-- The axis permutation `(p.x, p.z, -p.y)` applied by the presentation
layer (`new THREE.Vector3(p.x, p.z, -p.y)` throughout `TinMesh.ts`). -/
def present (p : Point3D) : ℚ × ℚ × ℚ :=
  (p.x, p.z, -p.y)

/-- Squared Euclidean distance in the permuted presentation space; the
source's `point.distanceTo(v)` is its square root, and every comparison
the source makes is a strict `<` of two such values, which squaring
preserves. -/
def dist2 (a b : ℚ × ℚ × ℚ) : ℚ :=
  (a.1 - b.1) ^ 2 + (a.2.1 - b.2.1) ^ 2 + (a.2.2 - b.2.2) ^ 2

/-- The scan loop of `findNearestPoint`: walk the active points carrying
the position and the best `(index, squared distance)` so far (`none`
plays `minDist = Infinity`); a strictly smaller distance replaces the
best, so ties keep the earlier index. -/
def nearestScan (q : ℚ × ℚ × ℚ) :
    List Point3D → ℕ → Option (ℕ × ℚ) → Option (ℕ × ℚ)
  | [], _, best => best
  | p :: rest, i, best =>
    let d := dist2 q (present p)
    let best' :=
      match best with
      | none => some (i, d)
      | some (j, dm) => if d < dm then some (i, d) else some (j, dm)
    nearestScan q rest (i + 1) best'

/-- `TinMesh.findNearestPoint` generalised over the squared distance
threshold: return the best index if its squared distance is strictly
below the threshold, else `none`. -/
def findNearestPointWithin (maxDist2 : ℚ) (m : TinMesh)
    (q : ℚ × ℚ × ℚ) : Option ℕ :=
  match nearestScan q (getActivePoints m) 0 none with
  | none => none
  | some (i, dm) => if dm < maxDist2 then some i else none

/-- `TinMesh.findNearestPoint` proper: the source hard-codes the
threshold `minDist < 1.5`, i.e. squared threshold `9/4`. -/
def findNearestPoint (m : TinMesh) (q : ℚ × ℚ × ℚ) : Option ℕ :=
  findNearestPointWithin (9 / 4) m q

/-! ## Fallible variant: the external capability may throw

`computeDelaunayF`, `regenerateF`, `setPointsF` embed the same source
lines as their total counterparts, but the oracle returns `Option`:
`none` models `new Delaunator(coords)` throwing.  Each operation
returns `(ok, state)` where `state` is the field content of the object
when control leaves the method — on a throw, every assignment already
executed has happened, and none after the throwing call. -/

/-- `computeDelaunay` against a fallible capability. -/
def computeDelaunayF (oracle : List (ℚ × ℚ) → Option (List (ℕ × ℕ × ℕ)))
    (points : List Point3D) : Option (List Triangle) :=
  if points.length < 3 then some []
  else (oracle (points.map fun p => (p.x, p.y))).map
    (List.map fun t => { indices := t, deleted := false })

/-- `regenerate` when the capability may throw: the assignment
`this.triangles = computeDelaunay(…)` happens only if the call returns,
so a throw leaves the whole state intact and no notification fires. -/
def regenerateF (oracle : List (ℚ × ℚ) → Option (List (ℕ × ℕ × ℕ)))
    (m : TinMesh) : Bool × TinMesh :=
  match computeDelaunayF oracle (getActivePoints m) with
  | some ts => (true, { m with triangles := ts, changeCount := m.changeCount + 1 })
  | none => (false, m)

/-- `setPoints` when the capability may throw: `this.points = [...points]`
and `this.deletedPoints.clear()` execute before `regenerate()` is
entered, so they survive a throw inside it. -/
def setPointsF (oracle : List (ℚ × ℚ) → Option (List (ℕ × ℕ × ℕ)))
    (m : TinMesh) (points : List Point3D) : Bool × TinMesh :=
  regenerateF oracle { m with points := points, deletedPoints := ∅ }

/-! ## Concrete fixtures used by witnesses and counterexamples -/

/-- A concrete stand-in for the external planar capability: any input of
at least 3 points triangulates to the single triple `(0, 1, 2)`. -/
def sampleOracle : List (ℚ × ℚ) → List (ℕ × ℕ × ℕ) :=
  fun ps => if 3 ≤ ps.length then [(0, 1, 2)] else []

/-- The 4-point square of the spec's concrete scenario. -/
def sampleSquare : List Point3D :=
  [⟨0, 0, 0⟩, ⟨5, 0, 0⟩, ⟨0, 5, 0⟩, ⟨5, 5, 0⟩]

/-- A freshly constructed mesh holding the sample square. -/
def sampleMesh : TinMesh :=
  { points := sampleSquare, triangles := [], deletedPoints := ∅, changeCount := 0 }

/-- A fallible capability that always throws. -/
def failOracle : List (ℚ × ℚ) → Option (List (ℕ × ℕ × ℕ)) := fun _ => none

/-- A replacement point list of 3 points (enough to consult the oracle). -/
def newTriple : List Point3D := [⟨1, 1, 1⟩, ⟨2, 0, 1⟩, ⟨0, 2, 1⟩]

/-! ## Shared helper lemmas -/

/-- An out-of-range active index makes `deletePointByActiveIndex` an
early return leaving the state untouched. -/
theorem deletePoint_out_of_range (oracle : List (ℚ × ℚ) → List (ℕ × ℕ × ℕ))
    (m : TinMesh) (i : ℤ)
    (h : i < 0 ∨ ((getActivePoints m).length : ℤ) ≤ i) :
    deletePointByActiveIndex oracle m i = m := by
  unfold deletePointByActiveIndex
  simp only [if_pos h]

/-! ## Claim C1 — atomicity under external triangulation failure -/

/-- Claim C1 counterexample: when the capability throws inside
`setPoints`, the previous `RawPointList` is NOT left intact — the new
point list was installed (and the deleted set cleared) before
`regenerate()` was entered, so only `TriangleSet` survives. -/
theorem claimC1_counterexample :
    (setPointsF failOracle sampleMesh newTriple).1 = false ∧
    (setPointsF failOracle sampleMesh newTriple).2.points ≠ sampleMesh.points ∧
    (setPointsF failOracle sampleMesh newTriple).2.triangles = sampleMesh.triangles := by
  decide

/-- Claim C1 as amended: a capability failure during `regenerate()`
alone leaves the whole state (points, deleted set, triangles,
notification count) intact; a failure during `setPoints(P)` leaves the
previous `TriangleSet` intact and fires no notification, but the raw
point list has already been replaced by `P` and the deleted set
cleared. -/
theorem claimC1_amended (oracle : List (ℚ × ℚ) → Option (List (ℕ × ℕ × ℕ)))
    (m : TinMesh) (P : List Point3D) :
    ((regenerateF oracle m).1 = false → (regenerateF oracle m).2 = m) ∧
    ((setPointsF oracle m P).1 = false →
      (setPointsF oracle m P).2.triangles = m.triangles ∧
      (setPointsF oracle m P).2.points = P ∧
      (setPointsF oracle m P).2.deletedPoints = ∅ ∧
      (setPointsF oracle m P).2.changeCount = m.changeCount) := by
  constructor
  · intro h
    unfold regenerateF at *
    cases hc : computeDelaunayF oracle (getActivePoints m) with
    | none => simp [hc]
    | some ts => simp [hc] at h
  · intro h
    unfold setPointsF regenerateF at *
    cases hc : computeDelaunayF oracle
        (getActivePoints { m with points := P, deletedPoints := ∅ }) with
    | none => simp [hc]
    | some ts => simp [hc] at h

/-- Witness for `claimC1_amended` at the always-throwing capability and
the sample mesh. -/
theorem claimC1_witness :
    (setPointsF failOracle sampleMesh newTriple).1 = false ∧
    (setPointsF failOracle sampleMesh newTriple).2.triangles = sampleMesh.triangles ∧
    (setPointsF failOracle sampleMesh newTriple).2.points = newTriple ∧
    (setPointsF failOracle sampleMesh newTriple).2.deletedPoints = ∅ ∧
    (setPointsF failOracle sampleMesh newTriple).2.changeCount = sampleMesh.changeCount :=
  ⟨rfl, (claimC1_amended failOracle sampleMesh newTriple).2 rfl⟩

/-! ## Claim C3 — out-of-range point deletion is a silent no-op -/

/-- Claim C3: for an active index `i < 0` or `i ≥` the active count,
`deletePointByActiveIndex` leaves the whole state — in particular
`points`, `deletedPoints` and `triangles` — exactly unchanged; the
embedding is a total function, so no error is raised. -/
theorem claimC3_deletePoint_out_of_range_noop
    (oracle : List (ℚ × ℚ) → List (ℕ × ℕ × ℕ)) (m : TinMesh) (i : ℤ)
    (h : i < 0 ∨ ((getActivePoints m).length : ℤ) ≤ i) :
    deletePointByActiveIndex oracle m i = m ∧
    (deletePointByActiveIndex oracle m i).points = m.points ∧
    (deletePointByActiveIndex oracle m i).deletedPoints = m.deletedPoints ∧
    (deletePointByActiveIndex oracle m i).triangles = m.triangles := by
  have := deletePoint_out_of_range oracle m i h
  exact ⟨this, by rw [this], by rw [this], by rw [this]⟩

/-- Witness for `claimC3_deletePoint_out_of_range_noop`: index 7 on the
4-point sample mesh. -/
theorem claimC3_witness :
    ((7 : ℤ) < 0 ∨ ((getActivePoints sampleMesh).length : ℤ) ≤ 7) ∧
    deletePointByActiveIndex sampleOracle sampleMesh 7 = sampleMesh :=
  ⟨Or.inr (by decide), (claimC3_deletePoint_out_of_range_noop sampleOracle sampleMesh 7
    (Or.inr (by decide))).1⟩

/-! ## Claim C6 — triangulation of fewer than 3 points; fresh flags -/

/-- Claim C6: with fewer than 3 points `computeDelaunay` returns the
empty sequence whatever the external capability is (so the capability is
not consulted), and every triangle it ever produces has
`deleted = false`. -/
theorem claimC6_triangulate_small_and_fresh (points : List Point3D) :
    (points.length < 3 →
      ∀ o₁ o₂ : List (ℚ × ℚ) → List (ℕ × ℕ × ℕ),
        computeDelaunay o₁ points = [] ∧
        computeDelaunay o₂ points = computeDelaunay o₁ points) ∧
    (∀ (oracle : List (ℚ × ℚ) → List (ℕ × ℕ × ℕ)) (t : Triangle),
      t ∈ computeDelaunay oracle points → t.deleted = false) := by
  constructor
  · intro h o₁ o₂
    simp [computeDelaunay, if_pos h]
  · intro oracle t ht
    unfold computeDelaunay at ht
    by_cases h : points.length < 3
    · simp [if_pos h] at ht
    · rw [if_neg h] at ht
      obtain ⟨u, -, rfl⟩ := List.mem_map.1 ht
      rfl

/-- Witness for `claimC6_triangulate_small_and_fresh`: the empty input
triangulates to the empty list, and the triangle the sample oracle
produces on the square starts not deleted. -/
theorem claimC6_witness :
    ([] : List Point3D).length < 3 ∧
    computeDelaunay sampleOracle ([] : List Point3D) = [] ∧
    Triangle.mk (0, 1, 2) false ∈ computeDelaunay sampleOracle sampleSquare ∧
    (Triangle.mk (0, 1, 2) false).deleted = false :=
  ⟨by decide,
   ((claimC6_triangulate_small_and_fresh []).1 (by decide) sampleOracle sampleOracle).1,
   by decide,
   (claimC6_triangulate_small_and_fresh sampleSquare).2 sampleOracle _ (by decide)⟩

/-! ## Claim C7 — the z coordinate is ignored by triangulation -/

/-- Claim C7: two point sequences agreeing pairwise on `x` and `y`
(`z` arbitrary) triangulate identically under any capability, because
`computeDelaunay` consults only the `(x, y)` projection. -/
theorem claimC7_ignores_z (oracle : List (ℚ × ℚ) → List (ℕ × ℕ × ℕ))
    (ps qs : List Point3D)
    (h : List.Forall₂ (fun p q => p.x = q.x ∧ p.y = q.y) ps qs) :
    computeDelaunay oracle ps = computeDelaunay oracle qs := by
  have hmap : (ps.map fun p => (p.x, p.y)) = qs.map fun p => (p.x, p.y) := by
    induction h with
    | nil => rfl
    | cons hpq _ ih => simp [ih, hpq.1, hpq.2]
  have hlen : ps.length = qs.length := h.length_eq
  unfold computeDelaunay
  rw [hlen, hmap]

/-- Witness for `claimC7_ignores_z`: the sample square with all `z`
coordinates disturbed triangulates identically. -/
theorem claimC7_witness :
    List.Forall₂ (fun p q => p.x = q.x ∧ p.y = q.y) sampleSquare
      ([⟨0, 0, 9⟩, ⟨5, 0, 8⟩, ⟨0, 5, 7⟩, ⟨5, 5, 6⟩] : List Point3D) ∧
    computeDelaunay sampleOracle sampleSquare =
      computeDelaunay sampleOracle
        ([⟨0, 0, 9⟩, ⟨5, 0, 8⟩, ⟨0, 5, 7⟩, ⟨5, 5, 6⟩] : List Point3D) := by
  have h : List.Forall₂ (fun p q => p.x = q.x ∧ p.y = q.y) sampleSquare
      ([⟨0, 0, 9⟩, ⟨5, 0, 8⟩, ⟨0, 5, 7⟩, ⟨5, 5, 6⟩] : List Point3D) := by
    simp [sampleSquare, List.forall₂_cons]
  exact ⟨h, claimC7_ignores_z sampleOracle _ _ h⟩

/-! ## Claim C9 — regenerate is a pure, idempotent function of
(points, deletedPoints) -/

/-- Claim C9: with the capability a fixed deterministic function,
`regenerate` depends only on `points` and `deletedPoints` (so repeated
regeneration yields the same triangle content), and `setPoints P` twice
reproduces the first call's triangles with all deletions cleared. -/
theorem claimC9_regenerate_pure (oracle : List (ℚ × ℚ) → List (ℕ × ℕ × ℕ))
    (m₁ m₂ : TinMesh) (P : List Point3D)
    (hp : m₁.points = m₂.points) (hd : m₁.deletedPoints = m₂.deletedPoints) :
    (regenerate oracle m₁).triangles = (regenerate oracle m₂).triangles ∧
    (regenerate oracle (regenerate oracle m₁)).triangles =
      (regenerate oracle m₁).triangles ∧
    (setPoints oracle (setPoints oracle m₁ P) P).triangles =
      (setPoints oracle m₁ P).triangles ∧
    (setPoints oracle (setPoints oracle m₁ P) P).deletedPoints = ∅ := by
  refine ⟨?_, rfl, rfl, rfl⟩
  simp only [regenerate, getActivePoints, hp, hd]

/-- Witness for `claimC9_regenerate_pure`: the sample mesh against a
copy of itself with a different notification count. -/
theorem claimC9_witness :
    sampleMesh.points = ({ sampleMesh with changeCount := 5 } : TinMesh).points ∧
    sampleMesh.deletedPoints =
      ({ sampleMesh with changeCount := 5 } : TinMesh).deletedPoints ∧
    (regenerate sampleOracle sampleMesh).triangles =
      (regenerate sampleOracle { sampleMesh with changeCount := 5 }).triangles :=
  ⟨rfl, rfl, (claimC9_regenerate_pure sampleOracle sampleMesh
    { sampleMesh with changeCount := 5 } sampleSquare rfl rfl).1⟩

/-! ## Claim C10 — notification asymmetry of the two no-op paths -/

/-- Claim C10: the rejected out-of-range point deletion returns before
`regenerate()` and fires no change notification, while `deleteEdge`
fires the notification even when its key matches no triangle — it
increments the notification count unconditionally. -/
theorem claimC10_notification (oracle : List (ℚ × ℚ) → List (ℕ × ℕ × ℕ))
    (m : TinMesh) (i : ℤ) (k : String)
    (h : i < 0 ∨ ((getActivePoints m).length : ℤ) ≤ i) :
    (deletePointByActiveIndex oracle m i).changeCount = m.changeCount ∧
    (deleteEdge m k).changeCount = m.changeCount + 1 := by
  rw [deletePoint_out_of_range oracle m i h]
  exact ⟨rfl, rfl⟩

/-- Witness for `claimC10_notification`: index −1 and an unmatched key
on the sample mesh. -/
theorem claimC10_witness :
    ((-1 : ℤ) < 0 ∨ ((getActivePoints sampleMesh).length : ℤ) ≤ -1) ∧
    (deletePointByActiveIndex sampleOracle sampleMesh (-1)).changeCount =
      sampleMesh.changeCount ∧
    (deleteEdge sampleMesh "99-100").changeCount = sampleMesh.changeCount + 1 :=
  ⟨Or.inl (by decide),
   (claimC10_notification sampleOracle sampleMesh (-1) "99-100" (Or.inl (by decide))).1,
   (claimC10_notification sampleOracle sampleMesh (-1) "99-100" (Or.inl (by decide))).2⟩

/-! ## Claim C4 — deleteEdge marks exactly the reported triangles -/

/-- `setTriDeleted` at position `i` viewed at position `j`: the entry at
`i` gets its flag set, every other entry is untouched. -/
theorem setTriDeleted_getElem (ts : List Triangle) (i j : ℕ) :
    (setTriDeleted ts i)[j]? =
      if i = j then ts[j]?.map (fun t => { t with deleted := true })
      else ts[j]? := by
  induction ts generalizing i j with
  | nil => simp [setTriDeleted]
  | cons t rest ih =>
    cases i with
    | zero =>
      cases j with
      | zero => simp [setTriDeleted]
      | succ j => simp [setTriDeleted]
    | succ i =>
      cases j with
      | zero => simp [setTriDeleted]
      | succ j => simpa [setTriDeleted] using ih i j

/-- Marking a triangle deleted twice is the same as once. -/
theorem setDel_idem (t : Triangle) :
    ({ { t with deleted := true } with deleted := true } : Triangle) =
      { t with deleted := true } := rfl

/-- The `forEach` loop of `deleteEdge` viewed at position `j`: positions
in the index list get their flag set (once — the update is idempotent),
all others are untouched. -/
theorem foldl_setTriDeleted_getElem (L : List ℕ) (ts : List Triangle) (j : ℕ) :
    (L.foldl setTriDeleted ts)[j]? =
      if j ∈ L then ts[j]?.map (fun t => { t with deleted := true })
      else ts[j]? := by
  induction L generalizing ts with
  | nil => simp
  | cons i L ih =>
    rw [List.foldl_cons, ih]
    by_cases hjL : j ∈ L
    · rw [if_pos hjL, if_pos (List.mem_cons.2 (Or.inr hjL)), setTriDeleted_getElem]
      by_cases hij : i = j
      · rw [if_pos hij]
        cases ts[j]? <;> simp
      · rw [if_neg hij]
    · by_cases hij : i = j
      · subst hij
        rw [if_neg hjL, if_pos (List.mem_cons.2 (Or.inl rfl)), setTriDeleted_getElem,
          if_pos rfl]
      · rw [if_neg hjL, setTriDeleted_getElem, if_neg hij,
          if_neg (fun hc => (List.mem_cons.1 hc).elim (fun h => hij h.symm) hjL)]

/-- Positions reported by the `trianglesWithEdge` scan starting at `i`
lie in `[i, i + length)`. -/
theorem trianglesWithEdgeAux_mem_bound (k : String) :
    ∀ (ts : List Triangle) (i j : ℕ),
      j ∈ trianglesWithEdgeAux k ts i → i ≤ j ∧ j < i + ts.length := by
  intro ts
  induction ts with
  | nil =>
    intro i j h
    simp [trianglesWithEdgeAux] at h
  | cons t rest ih =>
    intro i j h
    unfold trianglesWithEdgeAux at h
    by_cases hc : (!t.deleted && (getTriangleEdges t).any fun e => e.key == k) = true
    · rw [if_pos hc] at h
      rcases List.mem_cons.1 h with rfl | h'
      · simp
      · have := ih (i + 1) j h'
        constructor <;> [omega; simpa [Nat.add_comm, Nat.add_left_comm] using this.2]
    · rw [if_neg hc] at h
      have := ih (i + 1) j h
      constructor <;> [omega; simpa [Nat.add_comm, Nat.add_left_comm] using this.2]

/-- Claim C4: after `deleteEdge(k)` every triangle position reported by
`trianglesWithEdge` for `k` before the call has its `deleted` flag set
(the rest of the triangle record intact), every other position is
entirely unchanged, the raw point list and the deleted-point set are
untouched, and the change notification fires even when `k` matches no
triangle. -/
theorem claimC4_deleteEdge (m : TinMesh) (k : String) :
    (deleteEdge m k).points = m.points ∧
    (deleteEdge m k).deletedPoints = m.deletedPoints ∧
    (∀ j ∈ trianglesWithEdge m.triangles k,
      ∃ t : Triangle, m.triangles[j]? = some t ∧
        (deleteEdge m k).triangles[j]? = some { t with deleted := true }) ∧
    (∀ j : ℕ, j ∉ trianglesWithEdge m.triangles k →
      (deleteEdge m k).triangles[j]? = m.triangles[j]?) ∧
    (deleteEdge m k).changeCount = m.changeCount + 1 := by
  refine ⟨rfl, rfl, ?_, ?_, rfl⟩
  · intro j hj
    have hb := trianglesWithEdgeAux_mem_bound k m.triangles 0 j hj
    have hlt : j < m.triangles.length := by omega
    have ht : m.triangles[j]? = some m.triangles[j] :=
      List.getElem?_eq_some_iff.2 ⟨hlt, rfl⟩
    refine ⟨m.triangles[j], ht, ?_⟩
    show (trianglesWithEdge m.triangles k |>.foldl setTriDeleted m.triangles)[j]? = _
    rw [foldl_setTriDeleted_getElem, if_pos hj, ht]
    rfl
  · intro j hj
    show (trianglesWithEdge m.triangles k |>.foldl setTriDeleted m.triangles)[j]? = _
    rw [foldl_setTriDeleted_getElem, if_neg hj]

/-- A mesh holding two triangles sharing the edge `1-2`. -/
def twoTriMesh : TinMesh :=
  { points := sampleSquare,
    triangles := [⟨(0, 1, 2), false⟩, ⟨(1, 2, 3), false⟩],
    deletedPoints := ∅, changeCount := 0 }

/-- Witness for `claimC4_deleteEdge`: deleting the shared edge `1-2` of
the two sample triangles marks position 0 (and fires the
notification). -/
theorem claimC4_witness :
    (0 : ℕ) ∈ trianglesWithEdge twoTriMesh.triangles "1-2" ∧
    (∃ t : Triangle, twoTriMesh.triangles[0]? = some t ∧
      (deleteEdge twoTriMesh "1-2").triangles[0]? = some { t with deleted := true }) ∧
    (deleteEdge twoTriMesh "1-2").changeCount = twoTriMesh.changeCount + 1 :=
  ⟨by decide, (claimC4_deleteEdge twoTriMesh "1-2").2.2.1 0 (by decide),
   (claimC4_deleteEdge twoTriMesh "1-2").2.2.2.2⟩

/-! ## Claim C2 — valid point deletion

`rawActiveList` is the spec side of the `ActiveProjection` invariant:
"active index i corresponds to the i-th raw index, in ascending order,
not present in DeletedPointSet" — the ascending raw indices surviving
the deleted set. -/

/-- The raw indices of a candidate list that are not soft-deleted, in
order. -/
def rawActiveList (deleted : Finset ℕ) : List ℕ → List ℕ
  | [] => []
  | j :: rest =>
    if j ∈ deleted then rawActiveList deleted rest
    else j :: rawActiveList deleted rest

/-- The raw scan of `deletePointByActiveIndex` returns exactly the entry
of `rawActiveList` at offset `activeIndex − count`. -/
theorem scanRaw_eq_rawActiveList (deleted : Finset ℕ) (a : ℕ) :
    ∀ (l : List ℕ) (c : ℕ), c ≤ a →
      scanRaw deleted a l c = (rawActiveList deleted l)[a - c]? := by
  intro l
  induction l with
  | nil =>
    intro c _
    simp [scanRaw, rawActiveList]
  | cons j rest ih =>
    intro c hc
    unfold scanRaw rawActiveList
    by_cases hd : j ∈ deleted
    · rw [if_pos hd, if_pos hd, ih c hc]
    · rw [if_neg hd, if_neg hd]
      by_cases hca : c = a
      · subst hca
        rw [if_pos rfl, Nat.sub_self, List.getElem?_cons_zero]
      · have hlt : c < a := lt_of_le_of_ne hc hca
        rw [if_neg hca, ih (c + 1) hlt]
        have hsub : a - c = (a - (c + 1)) + 1 := by omega
        rw [hsub, List.getElem?_cons_succ]

/-- The active projection has as many points as there are surviving raw
indices in the corresponding index range. -/
theorem activeFilter_length_eq (deleted : Finset ℕ) :
    ∀ (l : List Point3D) (i : ℕ),
      (activeFilter deleted l i).length =
        (rawActiveList deleted (List.range' i l.length)).length := by
  intro l
  induction l with
  | nil =>
    intro i
    simp [activeFilter, rawActiveList]
  | cons p rest ih =>
    intro i
    rw [List.length_cons, List.range'_succ]
    unfold activeFilter rawActiveList
    by_cases hd : i ∈ deleted
    · rw [if_pos hd, if_pos hd, ih (i + 1)]
    · rw [if_neg hd, if_neg hd, List.length_cons, List.length_cons, ih (i + 1)]

/-- Survivors come from the candidate list and are not deleted. -/
theorem rawActiveList_mem (deleted : Finset ℕ) :
    ∀ (l : List ℕ) (r : ℕ), r ∈ rawActiveList deleted l → r ∈ l ∧ r ∉ deleted := by
  intro l
  induction l with
  | nil =>
    intro r h
    simp [rawActiveList] at h
  | cons j rest ih =>
    intro r h
    unfold rawActiveList at h
    by_cases hd : j ∈ deleted
    · rw [if_pos hd] at h
      have := ih r h
      exact ⟨List.mem_cons.2 (Or.inr this.1), this.2⟩
    · rw [if_neg hd] at h
      rcases List.mem_cons.1 h with rfl | h'
      · exact ⟨List.mem_cons.2 (Or.inl rfl), hd⟩
      · have := ih r h'
        exact ⟨List.mem_cons.2 (Or.inr this.1), this.2⟩

/-- Deleting an index absent from the candidate list changes nothing. -/
theorem rawActiveList_insert_not_mem (deleted : Finset ℕ) (r : ℕ) :
    ∀ l : List ℕ, r ∉ l →
      rawActiveList (insert r deleted) l = rawActiveList deleted l := by
  intro l
  induction l with
  | nil => intro _; rfl
  | cons j rest ih =>
    intro h
    have hjr : j ≠ r := fun hc => h (hc ▸ List.mem_cons.2 (Or.inl rfl))
    have hrest : r ∉ rest := fun hc => h (List.mem_cons.2 (Or.inr hc))
    unfold rawActiveList
    by_cases hd : j ∈ deleted
    · rw [if_pos hd, if_pos (Finset.mem_insert.2 (Or.inr hd)), ih hrest]
    · have : j ∉ insert r deleted := fun hc =>
        (Finset.mem_insert.1 hc).elim hjr hd
      rw [if_neg hd, if_neg this, ih hrest]

/-- Soft-deleting one surviving raw index shrinks the survivor list by
exactly one. -/
theorem rawActiveList_insert_length (deleted : Finset ℕ) (r : ℕ) :
    ∀ l : List ℕ, l.Nodup → r ∈ l → r ∉ deleted →
      (rawActiveList (insert r deleted) l).length + 1 =
        (rawActiveList deleted l).length := by
  intro l
  induction l with
  | nil =>
    intro _ h
    simp at h
  | cons j rest ih =>
    intro hnd hmem hrd
    rcases List.mem_cons.1 hmem with rfl | hrest
    · have hnotin : r ∉ rest := (List.nodup_cons.1 hnd).1
      unfold rawActiveList
      rw [if_neg hrd, if_pos (Finset.mem_insert.2 (Or.inl rfl)),
        rawActiveList_insert_not_mem deleted r rest hnotin, List.length_cons]
    · have hnd' : rest.Nodup := (List.nodup_cons.1 hnd).2
      unfold rawActiveList
      by_cases hd : j ∈ deleted
      · rw [if_pos hd, if_pos (Finset.mem_insert.2 (Or.inr hd)), ih hnd' hrest hrd]
      · have hjr : j ≠ r := fun hc => (List.nodup_cons.1 hnd).1 (hc ▸ hrest)
        have : j ∉ insert r deleted := fun hc =>
          (Finset.mem_insert.1 hc).elim hjr hd
        rw [if_neg hd, if_neg this, List.length_cons, List.length_cons,
          ← ih hnd' hrest hrd]

/-- Every triangle `computeDelaunay` produces starts not deleted. -/
theorem computeDelaunay_flags (oracle : List (ℚ × ℚ) → List (ℕ × ℕ × ℕ))
    (points : List Point3D) :
    ∀ t ∈ computeDelaunay oracle points, t.deleted = false := by
  intro t ht
  unfold computeDelaunay at ht
  by_cases h : points.length < 3
  · simp [if_pos h] at ht
  · rw [if_neg h] at ht
    obtain ⟨u, -, rfl⟩ := List.mem_map.1 ht
    rfl

/-- Claim C2: deleting a valid active index shrinks the active
projection by exactly one, records the raw index that occupied that
active position in the deleted set, and installs a wholesale-fresh
triangle set in which every flag is `false`. -/
theorem claimC2_deletePoint_valid (oracle : List (ℚ × ℚ) → List (ℕ × ℕ × ℕ))
    (m : TinMesh) (i : ℤ) (h0 : 0 ≤ i)
    (hlt : i < ((getActivePoints m).length : ℤ)) :
    (getActivePoints (deletePointByActiveIndex oracle m i)).length + 1 =
      (getActivePoints m).length ∧
    (∀ r : ℕ,
      (rawActiveList m.deletedPoints (List.range m.points.length))[i.toNat]? =
        some r →
      r ∈ (deletePointByActiveIndex oracle m i).deletedPoints) ∧
    (∀ t ∈ (deletePointByActiveIndex oracle m i).triangles, t.deleted = false) := by
  have hcond : ¬(i < 0 ∨ ((getActivePoints m).length : ℤ) ≤ i) := by omega
  have hlen_raw : (getActivePoints m).length =
      (rawActiveList m.deletedPoints (List.range m.points.length)).length := by
    rw [getActivePoints, activeFilter_length_eq, ← List.range_eq_range']
  have hidx : i.toNat <
      (rawActiveList m.deletedPoints (List.range m.points.length)).length := by
    omega
  obtain ⟨r, hr⟩ : ∃ r,
      (rawActiveList m.deletedPoints (List.range m.points.length))[i.toNat]? =
        some r :=
    ⟨_, List.getElem?_eq_some_iff.2 ⟨hidx, rfl⟩⟩
  have hscan : scanRaw m.deletedPoints i.toNat (List.range m.points.length) 0 =
      some r := by
    rw [scanRaw_eq_rawActiveList m.deletedPoints i.toNat
      (List.range m.points.length) 0 (Nat.zero_le _), Nat.sub_zero]
    exact hr
  have hmemrange : r ∈ List.range m.points.length ∧ r ∉ m.deletedPoints :=
    rawActiveList_mem m.deletedPoints (List.range m.points.length) r
      (List.getElem?_mem hr)
  have hres : deletePointByActiveIndex oracle m i =
      regenerate oracle { m with deletedPoints := insert r m.deletedPoints } := by
    simp only [deletePointByActiveIndex]
    rw [if_neg hcond, hscan]
  refine ⟨?_, ?_, ?_⟩
  · rw [hres]
    have hact : getActivePoints
        (regenerate oracle { m with deletedPoints := insert r m.deletedPoints }) =
        activeFilter (insert r m.deletedPoints) m.points 0 := rfl
    rw [hact, activeFilter_length_eq, ← List.range_eq_range', hlen_raw]
    exact rawActiveList_insert_length m.deletedPoints r
      (List.range m.points.length) (List.nodup_range _) hmemrange.1 hmemrange.2
  · intro r' hr'
    rw [hr] at hr'
    obtain rfl : r = r' := Option.some.inj hr'
    rw [hres]
    exact Finset.mem_insert_self r m.deletedPoints
  · intro t ht
    rw [hres] at ht
    exact computeDelaunay_flags oracle _ t ht

/-- Witness for `claimC2_deletePoint_valid`: deleting active index 1 of
the fresh 4-point square removes raw index 1 and shrinks the projection
to 3. -/
theorem claimC2_witness :
    (0 : ℤ) ≤ 1 ∧ (1 : ℤ) < ((getActivePoints sampleMesh).length : ℤ) ∧
    (getActivePoints (deletePointByActiveIndex sampleOracle sampleMesh 1)).length + 1 =
      (getActivePoints sampleMesh).length ∧
    (rawActiveList sampleMesh.deletedPoints
      (List.range sampleMesh.points.length))[(1 : ℤ).toNat]? = some 1 ∧
    1 ∈ (deletePointByActiveIndex sampleOracle sampleMesh 1).deletedPoints :=
  ⟨by decide, by decide,
   (claimC2_deletePoint_valid sampleOracle sampleMesh 1 (by decide) (by decide)).1,
   by decide,
   (claimC2_deletePoint_valid sampleOracle sampleMesh 1 (by decide) (by decide)).2.1 1
     (by decide)⟩

/-! ## Claim C5 — `getEdgeKey` symmetry and injectivity

JavaScript renders the template `a-b` with the decimal representation
of each number; the embedding's `toString` on `ℕ` is `Nat.repr`, whose
digit run is characterised below. -/

/-- The decimal digit characters of `n`, most significant first: the
recursion underlying `Nat.toDigitsCore` without fuel. -/
def decDigits (n : ℕ) : List Char :=
  if h : n / 10 = 0 then [Nat.digitChar (n % 10)]
  else decDigits (n / 10) ++ [Nat.digitChar (n % 10)]
decreasing_by
  exact Nat.div_lt_self (Nat.pos_of_ne_zero fun hn => h (by simp [hn])) (by omega)

/-- `Nat.toDigitsCore` with enough fuel prepends exactly `decDigits`. -/
theorem toDigitsCore_eq_decDigits :
    ∀ (fuel n : ℕ) (acc : List Char), n < fuel →
      Nat.toDigitsCore 10 fuel n acc = decDigits n ++ acc := by
  intro fuel
  induction fuel with
  | zero =>
    intro n acc h
    exact absurd h (Nat.not_lt_zero n)
  | succ fuel ih =>
    intro n acc h
    rw [Nat.toDigitsCore.eq_2, decDigits]
    by_cases hdiv : n / 10 = 0
    · rw [if_pos hdiv, dif_pos hdiv]
      rfl
    · have hpos : 0 < n := Nat.pos_of_ne_zero fun hn => hdiv (by simp [hn])
      have hlt : n / 10 < n := Nat.div_lt_self hpos (by omega)
      rw [if_neg hdiv, dif_neg hdiv, ih (n / 10) _ (by omega), List.append_assoc]
      rfl

/-- The character data of `Nat.repr` is the digit run. -/
theorem repr_data (n : ℕ) : (Nat.repr n).data = decDigits n := by
  show ((Nat.toDigits 10 n).asString).data = decDigits n
  rw [Nat.toDigits, toDigitsCore_eq_decDigits (n + 1) n [] (Nat.lt_succ_self n),
    List.append_nil]
  rfl

/-- Every character of the digit run is `Nat.digitChar` of a digit. -/
theorem decDigits_are_digits (n : ℕ) :
    ∀ c ∈ decDigits n, ∃ m, m < 10 ∧ c = Nat.digitChar m := by
  induction n using Nat.strong_induction_on with
  | _ n ih =>
    intro c hc
    rw [decDigits] at hc
    by_cases hdiv : n / 10 = 0
    · rw [dif_pos hdiv] at hc
      rcases List.mem_singleton.1 hc with rfl
      exact ⟨n % 10, Nat.mod_lt n (by omega), rfl⟩
    · have hpos : 0 < n := Nat.pos_of_ne_zero fun hn => hdiv (by simp [hn])
      rw [dif_neg hdiv] at hc
      rcases List.mem_append.1 hc with h | h
      · exact ih (n / 10) (Nat.div_lt_self hpos (by omega)) c h
      · rcases List.mem_singleton.1 h with rfl
        exact ⟨n % 10, Nat.mod_lt n (by omega), rfl⟩

/-- The dash separator never occurs in a digit run. -/
theorem decDigits_no_dash (n : ℕ) : '-' ∉ decDigits n := by
  intro h
  obtain ⟨m, hm, hc⟩ := decDigits_are_digits n '-' h
  have : ∀ m : ℕ, m < 10 → Nat.digitChar m ≠ '-' := by decide
  exact this m hm hc.symm

/-- The value read back from a digit run by the usual left fold. -/
def digitsVal (l : List Char) : ℕ :=
  l.foldl (fun a c => 10 * a + (c.toNat - 48)) 0

/-- Folding the value over a run with one more digit appended. -/
theorem digitsVal_append (l : List Char) (c : Char) :
    digitsVal (l ++ [c]) = 10 * digitsVal l + (c.toNat - 48) := by
  unfold digitsVal
  rw [List.foldl_append]
  rfl

/-- Reading back the digit run of `n` recovers `n`. -/
theorem digitsVal_decDigits (n : ℕ) : digitsVal (decDigits n) = n := by
  induction n using Nat.strong_induction_on with
  | _ n ih =>
    rw [decDigits]
    by_cases hdiv : n / 10 = 0
    · have hn : n < 10 := by
        have := Nat.div_add_mod n 10
        omega
      have hchar : (Nat.digitChar (n % 10)).toNat = 48 + n % 10 := by
        have : ∀ m : ℕ, m < 10 → (Nat.digitChar m).toNat = 48 + m := by decide
        exact this (n % 10) (Nat.mod_lt n (by omega) |>.trans_le (le_refl 10))
      rw [dif_pos hdiv]
      show digitsVal ([] ++ [Nat.digitChar (n % 10)]) = n
      rw [digitsVal_append, hchar]
      have : digitsVal [] = 0 := rfl
      rw [this]
      omega
    · have hpos : 0 < n := Nat.pos_of_ne_zero fun hn => hdiv (by simp [hn])
      have hchar : (Nat.digitChar (n % 10)).toNat = 48 + n % 10 := by
        have : ∀ m : ℕ, m < 10 → (Nat.digitChar m).toNat = 48 + m := by decide
        exact this (n % 10) (Nat.mod_lt n (by omega))
      rw [dif_neg hdiv, digitsVal_append,
        ih (n / 10) (Nat.div_lt_self hpos (by omega)), hchar]
      have := Nat.div_add_mod n 10
      omega

/-- Digit runs identify their number. -/
theorem decDigits_injective {m n : ℕ} (h : decDigits m = decDigits n) : m = n := by
  have := congrArg digitsVal h
  rwa [digitsVal_decDigits, digitsVal_decDigits] at this

/-- Splitting a character list at a dash known absent from both left
parts is unambiguous. -/
theorem append_dash_inj :
    ∀ (xs us ys vs : List Char), '-' ∉ xs → '-' ∉ us →
      xs ++ '-' :: ys = us ++ '-' :: vs → xs = us ∧ ys = vs := by
  intro xs
  induction xs with
  | nil =>
    intro us ys vs _ hu h
    cases us with
    | nil => simpa using h
    | cons u us' =>
      rw [List.nil_append, List.cons_append] at h
      rcases List.cons.inj h with ⟨rfl, -⟩
      exact absurd (List.mem_cons.2 (Or.inl rfl)) hu
  | cons x xs' ih =>
    intro us ys vs hx hu h
    cases us with
    | nil =>
      rw [List.cons_append, List.nil_append] at h
      rcases List.cons.inj h with ⟨rfl, -⟩
      exact absurd (List.mem_cons.2 (Or.inl rfl)) hx
    | cons u us' =>
      rw [List.cons_append, List.cons_append] at h
      rcases List.cons.inj h with ⟨rfl, h'⟩
      have hx' : '-' ∉ xs' := fun hc => hx (List.mem_cons.2 (Or.inr hc))
      have hu' : '-' ∉ us' := fun hc => hu (List.mem_cons.2 (Or.inr hc))
      obtain ⟨h1, h2⟩ := ih us' ys vs hx' hu' h'
      exact ⟨by rw [h1], h2⟩

/-- The character data of an ordered key. -/
theorem getEdgeKey_data_of_le {a b : ℕ} (hab : a ≤ b) :
    (getEdgeKey a b).data = decDigits a ++ '-' :: decDigits b := by
  have hdash : ("-" : String).data = ['-'] := rfl
  rcases lt_or_eq_of_le hab with h | rfl
  · rw [getEdgeKey, if_pos h]
    show (toString a ++ "-" ++ toString b).data = _
    rw [String.data_append, String.data_append, hdash]
    show (Nat.repr a).data ++ _ ++ (Nat.repr b).data = _
    rw [repr_data, repr_data, List.append_assoc]
    rfl
  · rw [getEdgeKey, if_neg (lt_irrefl a)]
    show (toString a ++ "-" ++ toString a).data = _
    rw [String.data_append, String.data_append, hdash]
    show (Nat.repr a).data ++ _ ++ (Nat.repr a).data = _
    rw [repr_data, List.append_assoc]
    rfl

/-- Claim C5: the edge key is symmetric in its two indices, and over
ordered pairs (`a ≤ b`, `c ≤ d`) it is injective. -/
theorem claimC5_edgeKey_sym_inj :
    (∀ a b : ℕ, getEdgeKey a b = getEdgeKey b a) ∧
    (∀ a b c d : ℕ, a ≤ b → c ≤ d → getEdgeKey a b = getEdgeKey c d →
      a = c ∧ b = d) := by
  constructor
  · intro a b
    rcases lt_trichotomy a b with h | rfl | h
    · rw [getEdgeKey, if_pos h, getEdgeKey, if_neg (not_lt_of_gt h)]
    · rfl
    · rw [getEdgeKey, if_neg (not_lt_of_gt h), getEdgeKey, if_pos h]
  · intro a b c d hab hcd h
    have hdata := congrArg String.data h
    rw [getEdgeKey_data_of_le hab, getEdgeKey_data_of_le hcd] at hdata
    obtain ⟨h1, h2⟩ := append_dash_inj (decDigits a) (decDigits c)
      (decDigits b) (decDigits d) (decDigits_no_dash a) (decDigits_no_dash c) hdata
    exact ⟨decDigits_injective h1, decDigits_injective h2⟩

/-- Witness for `claimC5_edgeKey_sym_inj`: symmetry at `(3, 12)` and
injectivity at the pair `(3, 12) = (3, 12)`. -/
theorem claimC5_witness :
    getEdgeKey 3 12 = getEdgeKey 12 3 ∧
    (3 ≤ 12 ∧ ((3 : ℕ) = 3 ∧ (12 : ℕ) = 12)) :=
  ⟨claimC5_edgeKey_sym_inj.1 3 12,
   by decide,
   claimC5_edgeKey_sym_inj.2 3 12 3 12 (by decide) (by decide) rfl⟩

/-! ## Claim C8 — nearest-point query -/

/-- Running the scan from a known best `(j, d)`: it returns some best
`(j', d')` with `d'` the minimum of `d` and all scanned distances, and
`j'` either the inherited index (on no strict improvement) or the
position of the first strict achiever of the new minimum. -/
theorem nearestScan_spec (q : ℚ × ℚ × ℚ) :
    ∀ (l : List Point3D) (i j : ℕ) (d : ℚ),
      ∃ j' d', nearestScan q l i (some (j, d)) = some (j', d') ∧
        d' ≤ d ∧
        (∀ (k : ℕ) (pk : Point3D), l[k]? = some pk → d' ≤ dist2 q (present pk)) ∧
        ((j' = j ∧ d' = d) ∨
          (∃ (k : ℕ) (pk : Point3D), l[k]? = some pk ∧ j' = i + k ∧
            d' = dist2 q (present pk) ∧ d' < d ∧
            ∀ (k' : ℕ) (pk' : Point3D), l[k']? = some pk' → k' < k →
              d' < dist2 q (present pk'))) := by
  intro l
  induction l with
  | nil =>
    intro i j d
    refine ⟨j, d, rfl, le_refl d, ?_, Or.inl ⟨rfl, rfl⟩⟩
    intro k pk hk
    simp at hk
  | cons p rest ih =>
    intro i j d
    have hstep : nearestScan q (p :: rest) i (some (j, d)) =
        nearestScan q rest (i + 1)
          (if dist2 q (present p) < d then some (i, dist2 q (present p))
           else some (j, d)) := rfl
    by_cases hlt : dist2 q (present p) < d
    · obtain ⟨j', d', heq, hle, hall, hcase⟩ := ih (i + 1) i (dist2 q (present p))
      refine ⟨j', d', ?_, ?_, ?_, ?_⟩
      · rw [hstep, if_pos hlt, heq]
      · exact hle.trans (le_of_lt hlt)
      · intro k pk hk
        cases k with
        | zero =>
          rw [List.getElem?_cons_zero] at hk
          obtain rfl := Option.some.inj hk
          exact hle
        | succ k =>
          rw [List.getElem?_cons_succ] at hk
          exact hall k pk hk
      · rcases hcase with ⟨hj', hd'⟩ | ⟨k, pk, hk, hj', hd', hlt', hearly⟩
        · refine Or.inr ⟨0, p, List.getElem?_cons_zero, by omega, ?_, ?_, ?_⟩
          · rw [hd']
          · rw [hd']; exact hlt
          · intro k' pk' _ hk'0
            exact absurd hk'0 (Nat.not_lt_zero k')
        · refine Or.inr ⟨k + 1, pk, ?_, by omega, hd', ?_, ?_⟩
          · rw [List.getElem?_cons_succ]; exact hk
          · exact hlt'.trans hlt
          · intro k' pk' hk' hk'lt
            cases k' with
            | zero =>
              rw [List.getElem?_cons_zero] at hk'
              obtain rfl := Option.some.inj hk'
              exact hlt'
            | succ k' =>
              rw [List.getElem?_cons_succ] at hk'
              exact hearly k' pk' hk' (by omega)
    · obtain ⟨j', d', heq, hle, hall, hcase⟩ := ih (i + 1) j d
      have hd0 : d ≤ dist2 q (present p) := le_of_not_lt hlt
      refine ⟨j', d', ?_, hle, ?_, ?_⟩
      · rw [hstep, if_neg hlt, heq]
      · intro k pk hk
        cases k with
        | zero =>
          rw [List.getElem?_cons_zero] at hk
          obtain rfl := Option.some.inj hk
          exact hle.trans hd0
        | succ k =>
          rw [List.getElem?_cons_succ] at hk
          exact hall k pk hk
      · rcases hcase with h | ⟨k, pk, hk, hj', hd', hlt', hearly⟩
        · exact Or.inl h
        · refine Or.inr ⟨k + 1, pk, ?_, by omega, hd', hlt', ?_⟩
          · rw [List.getElem?_cons_succ]; exact hk
          · intro k' pk' hk' hk'lt
            cases k' with
            | zero =>
              rw [List.getElem?_cons_zero] at hk'
              obtain rfl := Option.some.inj hk'
              exact lt_of_lt_of_le hlt' hd0
            | succ k' =>
              rw [List.getElem?_cons_succ] at hk'
              exact hearly k' pk' hk' (by omega)

/-- Claim C8: `findNearestPoint` (generalised over the squared
threshold) scans the active points in ascending order in the permuted
presentation space and returns `some i` exactly for the first index
attaining the minimum squared distance when that minimum is strictly
below the threshold: a returned index is minimal-distance, strictly
better than every earlier index, and strictly below the threshold;
if every active point is at least the threshold away the result is
`none`; and if some active point is strictly inside the threshold a
point is returned. -/
theorem claimC8_nearestPoint (maxD2 : ℚ) (m : TinMesh) (q : ℚ × ℚ × ℚ) :
    (∀ i : ℕ, findNearestPointWithin maxD2 m q = some i →
      ∃ pi : Point3D, (getActivePoints m)[i]? = some pi ∧
        dist2 q (present pi) < maxD2 ∧
        (∀ (k : ℕ) (pk : Point3D), (getActivePoints m)[k]? = some pk →
          dist2 q (present pi) ≤ dist2 q (present pk)) ∧
        (∀ (k : ℕ) (pk : Point3D), (getActivePoints m)[k]? = some pk → k < i →
          dist2 q (present pi) < dist2 q (present pk))) ∧
    ((∀ (k : ℕ) (pk : Point3D), (getActivePoints m)[k]? = some pk →
        maxD2 ≤ dist2 q (present pk)) →
      findNearestPointWithin maxD2 m q = none) ∧
    ((∃ (k : ℕ) (pk : Point3D), (getActivePoints m)[k]? = some pk ∧
        dist2 q (present pk) < maxD2) →
      ∃ i : ℕ, findNearestPointWithin maxD2 m q = some i) := by
  rcases hpts : getActivePoints m with - | ⟨p, rest⟩
  · have hfn : findNearestPointWithin maxD2 m q = none := by
      unfold findNearestPointWithin
      rw [hpts]
      rfl
    rw [hfn]
    refine ⟨?_, ?_, ?_⟩
    · intro i hi
      exact absurd hi Option.noConfusion
    · intro _
      rfl
    · rintro ⟨k, pk, hk, -⟩
      simp at hk
  · obtain ⟨j', d', heq, hle, hall, hcase⟩ :=
      nearestScan_spec q rest 1 0 (dist2 q (present p))
    have hfn : findNearestPointWithin maxD2 m q =
        if d' < maxD2 then some j' else none := by
      unfold findNearestPointWithin
      rw [hpts]
      show (match nearestScan q rest 1 (some (0, dist2 q (present p))) with
        | none => none
        | some (i, dm) => if dm < maxD2 then some i else none) = _
      rw [heq]
    have hglob_min : ∀ (k : ℕ) (pk : Point3D), (p :: rest)[k]? = some pk →
        d' ≤ dist2 q (present pk) := by
      intro k pk hk
      cases k with
      | zero =>
        rw [List.getElem?_cons_zero] at hk
        obtain rfl := Option.some.inj hk
        exact hle
      | succ k =>
        rw [List.getElem?_cons_succ] at hk
        exact hall k pk hk
    have hglob_idx : ∃ pj : Point3D, (p :: rest)[j']? = some pj ∧
        d' = dist2 q (present pj) ∧
        (∀ (k : ℕ) (pk : Point3D), (p :: rest)[k]? = some pk → k < j' →
          d' < dist2 q (present pk)) := by
      rcases hcase with ⟨hj', hd'⟩ | ⟨k, pk, hk, hj', hd', hlt', hearly⟩
      · subst hj'
        refine ⟨p, List.getElem?_cons_zero, hd', ?_⟩
        intro k pk _ hk0
        exact absurd hk0 (Nat.not_lt_zero k)
      · have hj'succ : j' = k + 1 := by omega
        subst hj'succ
        refine ⟨pk, ?_, hd', ?_⟩
        · rw [List.getElem?_cons_succ]
          exact hk
        · intro k' pk' hk' hk'lt
          cases k' with
          | zero =>
            rw [List.getElem?_cons_zero] at hk'
            obtain rfl := Option.some.inj hk'
            exact hlt'
          | succ k' =>
            rw [List.getElem?_cons_succ] at hk'
            exact hearly k' pk' hk' (by omega)
    obtain ⟨pj, hpj, hdpj, hfirst⟩ := hglob_idx
    rw [hfn]
    refine ⟨?_, ?_, ?_⟩
    · intro i hi
      by_cases hthr : d' < maxD2
      · rw [if_pos hthr] at hi
        obtain rfl := Option.some.inj hi
        exact ⟨pj, hpj, hdpj ▸ hthr, fun k pk hk => hdpj ▸ hglob_min k pk hk,
          fun k pk hk hklt => hdpj ▸ hfirst k pk hk hklt⟩
      · rw [if_neg hthr] at hi
        exact absurd hi Option.noConfusion
    · intro hfar
      rw [if_neg (not_lt.2 (hdpj ▸ hfar j' pj hpj))]
    · rintro ⟨k, pk, hk, hnear⟩
      rw [if_pos (lt_of_le_of_lt (hglob_min k pk hk) hnear)]
      exact ⟨j', rfl⟩

/-- Witness for `claimC8_nearestPoint`: on the fresh sample mesh, the
query at the origin of presentation space is strictly within the
squared threshold 9/4 of active point 0, so a point is returned. -/
theorem claimC8_witness :
    ((getActivePoints sampleMesh)[0]? = some ⟨0, 0, 0⟩ ∧
      dist2 (0, 0, 0) (present ⟨0, 0, 0⟩) < 9 / 4) ∧
    (∃ i : ℕ, findNearestPointWithin (9 / 4) sampleMesh (0, 0, 0) = some i) := by
  have h0 : (getActivePoints sampleMesh)[0]? = some ⟨0, 0, 0⟩ := by decide
  have hd : dist2 (0, 0, 0) (present (⟨0, 0, 0⟩ : Point3D)) < 9 / 4 := by
    norm_num [dist2, present]
  exact ⟨⟨h0, hd⟩,
    (claimC8_nearestPoint (9 / 4) sampleMesh (0, 0, 0)).2.2 ⟨0, ⟨0, 0, 0⟩, h0, hd⟩⟩
